import Mathlib

/-!
Verification of the `chad` terminal archive browser (`src/main.rs`).

Strings are modelled as `List Char`; Rust's `String` ordering (byte-wise
lexicographic over UTF-8) coincides with code-point lexicographic order,
which is what `strCmp` implements.  Machine integers are `Nat` with
explicit wrap-around (`% 2^64`) where the Rust code can overflow.
Fallible code (Rust panics via `expect`/`unwrap`, slice-boundary panics,
debug-mode arithmetic underflow) is modelled with `Except Unit`.
-/

namespace Chad

abbrev Str := List Char

/-- Convert a Lean string literal to the `List Char` model. -/
def str (s : String) : Str := s.data

/-! ## Comparison infrastructure (models `Ord` on Rust integers and `String`) -/

/-- Three-way comparison on `Nat` (models `u64`/`usize` `Ord::cmp`). -/
def natCmp (a b : Nat) : Ordering :=
  if a < b then .lt else if b < a then .gt else .eq

/-- Three-way comparison on `Char` by code point (models Rust `char`/byte order). -/
def charCmp (a b : Char) : Ordering := natCmp a.toNat b.toNat

/-- Lexicographic three-way comparison on strings; agrees with Rust
`String::cmp` (byte-wise lexicographic on UTF-8 equals code-point order). -/
def strCmp : Str → Str → Ordering
  | [], [] => .eq
  | [], _ :: _ => .lt
  | _ :: _, [] => .gt
  | a :: as, b :: bs => (charCmp a b).then (strCmp as bs)

/-- Strict lexicographic order on strings. -/
def strLt (a b : Str) : Prop := strCmp a b = .lt

theorem then_eq_eq {o p : Ordering} : o.then p = .eq ↔ o = .eq ∧ p = .eq := by
  cases o <;> simp [Ordering.then]

theorem then_eq_lt {o p : Ordering} :
    o.then p = .lt ↔ o = .lt ∨ (o = .eq ∧ p = .lt) := by
  cases o <;> simp [Ordering.then]

theorem then_eq_gt {o p : Ordering} :
    o.then p = .gt ↔ o = .gt ∨ (o = .eq ∧ p = .gt) := by
  cases o <;> simp [Ordering.then]

theorem swap_then (o p : Ordering) : (o.then p).swap = o.swap.then p.swap := by
  cases o <;> cases p <;> rfl

theorem natCmp_eq_iff {a b : Nat} : natCmp a b = .eq ↔ a = b := by
  unfold natCmp; split <;> rename_i h
  · simp; omega
  · split <;> simp <;> omega

theorem natCmp_lt_iff {a b : Nat} : natCmp a b = .lt ↔ a < b := by
  unfold natCmp; split <;> rename_i h
  · simp [h]
  · split <;> simp <;> omega

theorem natCmp_gt_iff {a b : Nat} : natCmp a b = .gt ↔ b < a := by
  unfold natCmp; split <;> rename_i h
  · simp; omega
  · split <;> simp <;> omega

theorem natCmp_swap (a b : Nat) : natCmp b a = (natCmp a b).swap := by
  by_cases h1 : a < b
  · simp [natCmp, h1, show ¬ b < a by omega, Ordering.swap]
  · by_cases h2 : b < a
    · simp [natCmp, h1, h2, Ordering.swap]
    · simp [natCmp, h1, h2, Ordering.swap]

theorem charCmp_eq_iff {a b : Char} : charCmp a b = .eq ↔ a = b := by
  constructor
  · intro h
    exact Char.ext (UInt32.toNat.inj (natCmp_eq_iff.mp h))
  · rintro rfl
    exact natCmp_eq_iff.mpr rfl

theorem charCmp_lt_iff {a b : Char} : charCmp a b = .lt ↔ a.toNat < b.toNat :=
  natCmp_lt_iff

theorem charCmp_gt_iff {a b : Char} : charCmp a b = .gt ↔ b.toNat < a.toNat :=
  natCmp_gt_iff

theorem charCmp_swap (a b : Char) : charCmp b a = (charCmp a b).swap :=
  natCmp_swap a.toNat b.toNat

theorem strCmp_eq_iff : ∀ {a b : Str}, strCmp a b = .eq ↔ a = b
  | [], [] => by simp [strCmp]
  | [], _ :: _ => by simp [strCmp]
  | _ :: _, [] => by simp [strCmp]
  | a :: as, b :: bs => by
    simp only [strCmp, then_eq_eq, charCmp_eq_iff, List.cons.injEq]
    exact and_congr_right fun _ => strCmp_eq_iff

theorem strCmp_refl {a : Str} : strCmp a a = .eq := strCmp_eq_iff.mpr rfl

theorem strCmp_swap : ∀ (a b : Str), strCmp b a = (strCmp a b).swap
  | [], [] => rfl
  | [], _ :: _ => rfl
  | _ :: _, [] => rfl
  | a :: as, b :: bs => by
    show (charCmp b a).then (strCmp bs as) = ((charCmp a b).then (strCmp as bs)).swap
    rw [swap_then, charCmp_swap a b, strCmp_swap as bs]

theorem strCmp_gt_iff_lt {a b : Str} : strCmp a b = .gt ↔ strCmp b a = .lt := by
  rw [strCmp_swap b a]
  cases h : strCmp b a <;> simp [Ordering.swap]

theorem strCmp_lt_trans :
    ∀ {a b c : Str}, strCmp a b = .lt → strCmp b c = .lt → strCmp a c = .lt
  | [], [], _ :: _, _, _ => rfl
  | [], _ :: _, _ :: _, _, _ => rfl
  | a :: as, b :: bs, c :: cs, hab, hbc => by
    simp only [strCmp, then_eq_lt] at hab hbc ⊢
    rcases hab with h1 | ⟨h1, h1s⟩
    · rcases hbc with h2 | ⟨h2, h2s⟩
      · exact Or.inl (charCmp_lt_iff.mpr
          (Nat.lt_trans (charCmp_lt_iff.mp h1) (charCmp_lt_iff.mp h2)))
      · obtain rfl := charCmp_eq_iff.mp h2
        exact Or.inl h1
    · obtain rfl := charCmp_eq_iff.mp h1
      rcases hbc with h2 | ⟨h2, h2s⟩
      · exact Or.inl h2
      · exact Or.inr ⟨h2, strCmp_lt_trans h1s h2s⟩

/-! ## Label normalization (`update_value`, src/main.rs lines 40-48) -/

/-- The direct-message marker `"Direct Message with "`. -/
def dmWith : Str := str "Direct Message with "

/-- The infix separator `" in "`. -/
def sepIn : Str := str " in "

/-- Split at the LAST occurrence of `sep` (models Rust `str::rsplit_once`):
prefers a match further right, returns the parts before and after it. -/
def rsplit_once (sep : Str) : Str → Option (Str × Str)
  | [] => none
  | c :: rest =>
    match rsplit_once sep rest with
    | some (a, b) => some (c :: a, b)
    | none =>
      if sep.isPrefixOf (c :: rest) then some ([], (c :: rest).drop sep.length)
      else none

/-- `update_value` (src/main.rs lines 40-48): strip the
`"Direct Message with "` marker; otherwise rewrite
`"<subject> in <container>"` (splitting at the last `" in "`) to
`"<container> - <subject>"`; otherwise keep the label verbatim. -/
def update_value (v : Str) : Str :=
  if dmWith.isPrefixOf v then v.drop dmWith.length
  else
    match rsplit_once sepIn v with
    | some (text1, text2) => text2 ++ str " - " ++ text1
    | none => v

/-! ## `u64` parsing (models Rust `str::parse::<u64>`) -/

/-- `parseU64` models Rust `str::parse::<u64>()`: an optional leading `+`,
then one or more ASCII digits, value below `2^64`; anything else fails. -/
def parseU64 (s : Str) : Option Nat :=
  let digits := if s.head? = some '+' then s.drop 1 else s
  if digits.isEmpty then none
  else if digits.all Char.isDigit then
    let n := digits.foldl (fun acc c => acc * 10 + (c.toNat - 48)) 0
    if n < 2 ^ 64 then some n else none
  else none

/-! ## Creation date (models `parse_snowflake_to_timestamp`,
src/main.rs lines 50-55, with chrono's proleptic-Gregorian UTC calendar
and the `"%B %Y"` format of full month name plus year) -/

/-- Full English month names, as chrono's `%B` prints them. -/
def monthName : Nat → Str
  | 1 => str "January"
  | 2 => str "February"
  | 3 => str "March"
  | 4 => str "April"
  | 5 => str "May"
  | 6 => str "June"
  | 7 => str "July"
  | 8 => str "August"
  | 9 => str "September"
  | 10 => str "October"
  | 11 => str "November"
  | 12 => str "December"
  | _ => []

/-- Civil (proleptic Gregorian) year and month from a count of days since
1970-01-01, for non-negative day counts; models chrono's calendar. -/
def civilYM (days : Nat) : Nat × Nat :=
  let z := days + 719468
  let era := z / 146097
  let doe := z % 146097
  let yoe := (doe - doe / 1460 + doe / 36524 - doe / 146096) / 365
  let y := yoe + era * 400
  let doy := doe - (365 * yoe + yoe / 4 - yoe / 100)
  let mp := (5 * doy + 2) / 153
  let m := if mp < 10 then mp + 3 else mp - 9
  (if m ≤ 2 then y + 1 else y, m)

/-- Decimal rendering of a `Nat` (models Rust `Display` for integers). -/
def natToStr (n : Nat) : Str := (Nat.repr n).data

/-- `%Y`: the year, zero-padded to at least four digits. -/
def pad4 (n : Nat) : Str :=
  let d := natToStr n
  List.replicate (4 - d.length) '0' ++ d

/-- Format a non-negative millisecond Unix timestamp as chrono's
`"%B %Y"`: full month name, a space, the 4-digit year. -/
def format_month_year (ms : Nat) : Str :=
  let ym := civilYM (ms / 86400000)
  monthName ym.2 ++ [' '] ++ pad4 ym.1

/-- `parse_snowflake_to_timestamp` (src/main.rs lines 50-55): parse the
identifier as `u64` (the `expect` panic on failure is the `.error` case),
compute `(id >>> 22) + 1420070400000` milliseconds, format as `"%B %Y"`. -/
def parse_snowflake_to_timestamp (snowflake : Str) : Except Unit Str :=
  match parseU64 snowflake with
  | none => .error ()
  | some id => .ok (format_month_year ((id >>> 22) + 1420070400000))

/-! ## Data model (src/main.rs lines 27-38, 66-67) -/

/-- `ChannelInfo` (src/main.rs lines 33-38): the parsed `channel.json`. -/
structure ChannelInfo where
  id : Str
  channel_type : Str
deriving DecidableEq

/-- The JSON encoding of a message's `"ID"` field, as the export code
inspects it: `num n` is a JSON number for which `as_u64` succeeds,
`strVal s` a JSON string, `other` any other encoding (or an absent field,
which indexing turns into JSON null). -/
inductive IdVal where
  | num (n : Nat)
  | strVal (s : Str)
  | other
deriving DecidableEq

/-- One record of `messages.json`: its `"ID"` field and whether its
`"Attachments"` field equals the empty string. -/
structure Msg where
  idVal : IdVal
  attachmentsEmpty : Bool
deriving DecidableEq

/-- One element of the loader's channel tuple
`(type, name, date, id, message_count, attachment_count, selected)`
(src/main.rs lines 66-67, 104-112). -/
structure Chan where
  channel_type : Str
  name : Str
  date : Str
  id : Str
  msg_count : Nat
  attachment_count : Nat
  selected : Bool
deriving DecidableEq

/-- The on-disk archive, as the program reads it.  For each channel id,
`channelJson`/`messagesJson` return `none` when the file is absent,
`some none` when it is present but fails to deserialize, and
`some (some v)` when it parses as `v`.  The index file itself is assumed
read and parsed (a missing index is a fatal error before any of the
verified code runs). -/
structure Archive where
  index : List (Str × Str)
  channelJson : Str → Option (Option ChannelInfo)
  messagesJson : Str → Option (Option (List Msg))

/-! ## Archive loader (`preprocess_index`, `load_channels`,
src/main.rs lines 57-124) -/

/-- `preprocess_index` (src/main.rs lines 57-64): rewrite every label of
the index with `update_value`.  (The rewritten index is also persisted
back to disk; that write has no effect on the loaded state.) -/
def preprocess_index (index : List (Str × Str)) : List (Str × Str) :=
  index.map fun e => (e.1, update_value e.2)

/-- The summary-build name normalization (src/main.rs lines 98-102):
strip a leading `"DM - "` marker. -/
def stripDM (name : Str) : Str :=
  if (str "DM - ").isPrefixOf name then name.drop (str "DM - ").length else name

/-- Per-entry body of the `load_channels` loop (src/main.rs lines 77-115).
`.ok none`: entry skipped (a file missing, or zero messages);
`.ok (some c)`: summary built; `.error ()`: fatal (malformed JSON via `?`,
or the `expect` panic on an unparseable snowflake id). -/
def build_channel (a : Archive) (e : Str × Str) : Except Unit (Option Chan) :=
  match a.channelJson e.1, a.messagesJson e.1 with
  | some cj, some mj =>
    match cj with
    | none => .error ()
    | some info =>
      match parse_snowflake_to_timestamp info.id with
      | .error _ => .error ()
      | .ok creation_date =>
        match mj with
        | none => .error ()
        | some messages =>
          let message_count := messages.length
          let attachment_count := (messages.filter fun m => !m.attachmentsEmpty).length
          if 0 < message_count then
            .ok (some { channel_type := info.channel_type, name := stripDM e.2,
                        date := creation_date, id := info.id,
                        msg_count := message_count,
                        attachment_count := attachment_count, selected := true })
          else .ok none
  | _, _ => .ok none

/-- The `load_channels` accumulation loop over the index entries. -/
def load_loop (a : Archive) : List (Str × Str) → Except Unit (List Chan)
  | [] => .ok []
  | e :: rest =>
    match build_channel a e with
    | .error er => .error er
    | .ok c? =>
      match load_loop a rest with
      | .error er => .error er
      | .ok tail =>
        match c? with
        | some c => .ok (c :: tail)
        | none => .ok tail

/-- The sort comparator (src/main.rs lines 117-121):
`b.4.cmp(&a.4).then_with(|| a.0.cmp(&b.0)).then_with(|| a.1.cmp(&b.1))` —
message count descending, then channel type ascending, then name
ascending. -/
def chanCmp (a b : Chan) : Ordering :=
  ((natCmp b.msg_count a.msg_count).then
    (strCmp a.channel_type b.channel_type)).then (strCmp a.name b.name)

/-- The non-strict order induced by `chanCmp`, as `sort_by` consumes it. -/
def chanLE (a b : Chan) : Bool :=
  match chanCmp a b with
  | .gt => false
  | _ => true

/-- `channels_info.sort_by(...)`: Rust's stable sort under the comparator,
modelled by the stable `List.mergeSort`. -/
def sortChannels (l : List Chan) : List Chan := l.mergeSort chanLE

/-- `load_channels` (src/main.rs lines 66-124): preprocess the index,
build one optional summary per entry (fatally propagating errors), sort. -/
def load_channels (a : Archive) : Except Unit (List Chan) :=
  match load_loop a (preprocess_index a.index) with
  | .error er => .error er
  | .ok l => .ok (sortChannels l)

/-- An index entry qualifies when its channel directory has both files
present (and parseable) and the message array is non-empty; this is the
spec-side eligibility criterion of §3. -/
def qualifies (a : Archive) (e : Str × Str) : Bool :=
  match a.channelJson e.1, a.messagesJson e.1 with
  | some _, some (some messages) => decide (0 < messages.length)
  | _, _ => false

/-- The summary an entry contributes when the loader keeps it. -/
def build_ok (a : Archive) (e : Str × Str) : Option Chan :=
  match build_channel a e with
  | .ok (some c) => some c
  | _ => none

/-! ## Export (`handle_command "export"` and `export_to_txt`,
src/main.rs lines 239-291) -/

/-- Identifier extraction for one message (src/main.rs lines 280-283):
`msg["ID"].as_u64().or_else(|| msg["ID"].as_str().map(|s| s.parse::<u64>().unwrap()))`.
A native integer yields its value; a string is parsed, and the `unwrap`
panic on a non-numeric string is the `.error` case; any other encoding
yields `none` (the record is skipped). -/
def extract_id : IdVal → Except Unit (Option Nat)
  | .num n => .ok (some n)
  | .strVal s =>
    match parseU64 s with
    | some n => .ok (some n)
    | none => .error ()
  | .other => .ok none

/-- The export loop over one channel's message records
(src/main.rs lines 279-286): collect the identifiers that extract,
skip the records whose extraction yields `none`. -/
def collect_ids : List Msg → Except Unit (List Nat)
  | [] => .ok []
  | m :: ms =>
    match extract_id m.idVal with
    | .error er => .error er
    | .ok h =>
      match collect_ids ms with
      | .error er => .error er
      | .ok tail =>
        match h with
        | some n => .ok (n :: tail)
        | none => .ok tail

/-- The `"export"` branch of `handle_command` (src/main.rs lines 269-291):
for each channel flagged selected, re-read and re-parse its message log
(`expect` panics on a missing or malformed file are `.error`), collect
`(channel_id, message_id)` pairs in order. -/
def export_selected (a : Archive) : List Chan → Except Unit (List (Str × Str))
  | [] => .ok []
  | c :: cs =>
    if c.selected then do
      match a.messagesJson c.id with
      | none => .error ()
      | some none => .error ()
      | some (some messages) =>
        let ids ← collect_ids messages
        let tail ← export_selected a cs
        .ok (ids.map (fun n => (c.id, natToStr n)) ++ tail)
    else export_selected a cs

/-- One `BTreeMap::entry(k).or_insert(vec![]).push(v)` step, on the map
modelled as an association list strictly sorted by key. -/
def insertGroup (k v : Str) : List (Str × List Str) → List (Str × List Str)
  | [] => [(k, [v])]
  | (k', vs) :: rest =>
    match strCmp k k' with
    | .lt => (k, [v]) :: (k', vs) :: rest
    | .eq => (k', vs ++ [v]) :: rest
    | .gt => (k', vs) :: insertGroup k v rest

/-- The grouping pass of `export_to_txt` (src/main.rs lines 241-248). -/
def groupPairs (selected_channels : List (Str × Str)) : List (Str × List Str) :=
  selected_channels.foldl (fun m p => insertGroup p.1 p.2 m) []

/-- `Vec::join(", ")`. -/
def joinCommaSpace : List Str → Str
  | [] => []
  | [x] => x
  | x :: xs => x ++ str ", " ++ joinCommaSpace xs

/-- `export_to_txt` (src/main.rs lines 239-262): the full text written to
`exported_channels.txt` — per channel (in map key order) a `<id>:` line,
the `", "`-joined message ids, and a blank line. -/
def export_to_txt (selected_channels : List (Str × Str)) : Str :=
  (groupPairs selected_channels).foldr
    (fun g acc => g.1 ++ [':', '\n'] ++ joinCommaSpace g.2 ++ ['\n', '\n'] ++ acc) []

/-- Association-list lookup by key equality (the map's notion of
grouping-by-equality). -/
def lookupG (k : Str) : List (Str × List Str) → Option (List Str)
  | [] => none
  | (k', vs) :: rest => if k = k' then some vs else lookupG k rest

/-! ## Terminal UI (`draw_ui` and the `main` event loop,
src/main.rs lines 126-237, 306-402) -/

/-- `visible_items` (src/main.rs line 153): `size.height as usize - 3`,
an unchecked `usize` subtraction — for heights below 3 it wraps modulo
`2^64` (release profile; a debug build panics there). -/
def visible_items (height : Nat) : Nat := (height + 2 ^ 64 - 3) % 2 ^ 64

/-- The name-column truncation (src/main.rs lines 182-186), at the byte
level: `channel_name.len()` is the UTF-8 byte length, and
`&channel_name[..27]` panics (`.error`) when byte offset 27 is not a
character boundary. -/
def utf8Len : Str → Nat
  | [] => 0
  | c :: cs => c.utf8Size + utf8Len cs

/-- `&s[..n]`: the first `n` bytes as characters; fails when `n` is not a
character boundary (or exceeds the string). -/
def byteTake (n : Nat) : Str → Except Unit Str
  | [] => if n = 0 then .ok [] else .error ()
  | c :: cs =>
    if n = 0 then .ok []
    else if c.utf8Size ≤ n then
      match byteTake (n - c.utf8Size) cs with
      | .ok t => .ok (c :: t)
      | .error e => .error e
    else .error ()

/-- `truncated_name` (src/main.rs lines 182-186): names longer than the
30-byte column are cut to their first 27 bytes plus `"..."`. -/
def truncated_name (channel_name : Str) : Except Unit Str :=
  if 30 < utf8Len channel_name then
    match byteTake 27 channel_name with
    | .ok t => .ok (t ++ str "...")
    | .error e => .error e
  else .ok channel_name

/-- The cursor state of the event loop (src/main.rs lines 317-319):
the channel list (only the `selected` flags matter to the handlers),
`selected_index`, and `offset`. -/
structure UIState where
  flags : List Bool
  sel : Nat
  off : Nat
deriving DecidableEq

/-- The non-command-mode key events the claims quantify over; `down`
carries the terminal height read at that event. -/
inductive UIEvent where
  | up
  | down (height : Nat)
  | space
deriving DecidableEq

/-- One key event of the non-command-mode handler
(src/main.rs lines 364-392).  `up` and `down` move the cursor and scroll
the offset; `down`'s bound is `channels.len() - 1`, whose `usize`
subtraction underflows on an empty list (`.error`); `space` toggles
`channels[selected_index].6` and indexing out of bounds panics
(`.error`). -/
def step (s : UIState) : UIEvent → Except Unit UIState
  | .up =>
    .ok (if 0 < s.sel then
      let sel' := s.sel - 1
      { s with sel := sel', off := if sel' < s.off then s.off - 1 else s.off }
    else s)
  | .down height =>
    if s.flags.length = 0 then .error ()
    else
      .ok (if s.sel < s.flags.length - 1 then
        let sel' := s.sel + 1
        { s with sel := sel',
                 off := if (s.off + visible_items height) % 2 ^ 64 ≤ sel' then
                          s.off + 1
                        else s.off }
      else s)
  | .space =>
    if hs : s.sel < s.flags.length then
      .ok { s with flags := s.flags.set s.sel (!s.flags.get ⟨s.sel, hs⟩) }
    else .error ()

/-- Run a sequence of key events from a state. -/
def runEvents (s : UIState) : List UIEvent → Except Unit UIState
  | [] => .ok s
  | e :: es => do
    let s' ← step s e
    runEvents s' es

/-! ## Theorems -/

/-- C3 counterexample: the label rewrite is not idempotent.  On
`"a in b in c"` one application gives `"c - a in b"`, which still
contains `" in "`, so a second application gives `"b - c - a"`. -/
theorem update_value_not_idempotent :
    update_value (update_value (str "a in b in c")) ≠
      update_value (str "a in b in c") := by
  decide

/-- C3 (amended): the rewrite is idempotent on any input whose
once-rewritten form no longer matches either pattern — it neither starts
with the `"Direct Message with "` marker nor contains `" in "`. -/
theorem update_value_idempotent_of_no_match (v : Str)
    (h1 : dmWith.isPrefixOf (update_value v) = false)
    (h2 : rsplit_once sepIn (update_value v) = none) :
    update_value (update_value v) = update_value v := by
  generalize update_value v = w at h1 h2 ⊢
  unfold update_value
  rw [if_neg (by simp [h1]), h2]

theorem update_value_idempotent_witness :
    update_value (update_value (str "hello")) = update_value (str "hello") :=
  update_value_idempotent_of_no_match (str "hello") (by decide) (by decide)

/-- C8: for every identifier string that parses as a 64-bit integer `n`,
the derived creation date is the `"%B %Y"` rendering of
`(n >>> 22) + 1420070400000` milliseconds since the epoch; at the
identifier `175928847299117063` this rendering is `"April 2016"`. -/
theorem snowflake_formula :
    (∀ (s : Str) (n : Nat), parseU64 s = some n →
      parse_snowflake_to_timestamp s =
        .ok (format_month_year ((n >>> 22) + 1420070400000))) ∧
    parse_snowflake_to_timestamp (str "175928847299117063") =
      .ok (str "April 2016") ∧
    format_month_year ((175928847299117063 >>> 22) + 1420070400000) =
      str "April 2016" := by
  refine ⟨fun s n h => ?_, by rfl, by rfl⟩
  unfold parse_snowflake_to_timestamp
  rw [h]

theorem snowflake_formula_witness :
    parse_snowflake_to_timestamp (str "7") =
      .ok (format_month_year ((7 >>> 22) + 1420070400000)) :=
  snowflake_formula.1 (str "7") 7 (by rfl)

/-- C2: the viewport-height computation equals `height - 3` whenever
`height ≥ 3`, but for the failing input `height = 2` the `usize`
subtraction wraps to `2^64 - 1` — not the zero visible rows the spec
requires (a debug build panics instead). -/
theorem visible_items_underflow :
    (∀ h, 3 ≤ h → h < 2 ^ 64 → visible_items h = h - 3) ∧
    visible_items 2 = 2 ^ 64 - 1 ∧ visible_items 2 ≠ 0 := by
  refine ⟨fun h h3 hlt => ?_, by norm_num [visible_items], by norm_num [visible_items]⟩
  unfold visible_items
  omega

theorem visible_items_underflow_witness : visible_items 24 = 21 :=
  visible_items_underflow.1 24 (by norm_num) (by norm_num)

theorem utf8Len_append (a b : Str) :
    utf8Len (a ++ b) = utf8Len a + utf8Len b := by
  induction a with
  | nil => simp [utf8Len]
  | cons c cs ih => simp [utf8Len, ih]; omega

theorem byteTake_spec :
    ∀ (s : Str) (n : Nat) (t : Str), byteTake n s = .ok t →
      ∃ suf, s = t ++ suf ∧ utf8Len t = n := by
  intro s
  induction s with
  | nil =>
    intro n t h
    simp only [byteTake] at h
    split at h
    · cases h
      rename_i hn
      exact ⟨[], rfl, by simp [utf8Len, hn]⟩
    · cases h
  | cons c cs ih =>
    intro n t h
    simp only [byteTake] at h
    split at h
    · cases h
      rename_i hn
      exact ⟨c :: cs, rfl, by simp [utf8Len, hn]⟩
    · split at h
      · rename_i hn hle
        cases hrec : byteTake (n - c.utf8Size) cs with
        | ok t' =>
          rw [hrec] at h
          cases h
          obtain ⟨suf, hsuf, hlen⟩ := ih _ _ hrec
          refine ⟨suf, by simp [hsuf], ?_⟩
          simp [utf8Len, hlen]
          omega
        | error e =>
          rw [hrec] at h
          cases h
      · cases h

/-- C9 counterexample: the name truncation is not total.  A name of
sixteen two-byte characters (`'é' × 16`, 32 bytes) exceeds the 30-byte
column, and the byte slice `&name[..27]` falls inside a character, which
panics in the code (modelled as `.error`). -/
theorem truncated_name_panics_on_multibyte :
    truncated_name (List.replicate 16 'é') = .error () := by
  rfl

/-- C9 (amended): a name of at most 30 bytes is shown unchanged, and when
truncation of a longer name succeeds it yields a byte prefix of the name
followed by `"..."`, exactly 30 bytes in total; but truncation is a
partial function of the name — for a multi-byte name whose byte offset 27
is not a character boundary it fails (see the counterexample). -/
theorem truncated_name_spec (channel_name : Str) :
    (utf8Len channel_name ≤ 30 →
      truncated_name channel_name = .ok channel_name) ∧
    (∀ t, truncated_name channel_name = .ok t →
      30 < utf8Len channel_name →
      ∃ pre suf, channel_name = pre ++ suf ∧
        t = pre ++ str "..." ∧ utf8Len t = 30) := by
  constructor
  · intro hle
    unfold truncated_name
    rw [if_neg (by omega)]
  · intro t ht hgt
    unfold truncated_name at ht
    rw [if_pos hgt] at ht
    cases hbt : byteTake 27 channel_name with
    | ok pre =>
      rw [hbt] at ht
      cases ht
      obtain ⟨suf, hsuf, hlen⟩ := byteTake_spec channel_name 27 pre hbt
      exact ⟨pre, suf, hsuf, rfl, by rw [utf8Len_append, hlen]; rfl⟩
    | error e =>
      rw [hbt] at ht
      cases ht

theorem truncated_name_spec_witness :
    truncated_name (str "general") = .ok (str "general") :=
  (truncated_name_spec (str "general")).1 (by decide)

theorem step_down_eq (s : UIState) (height : Nat)
    (hne : ¬ s.flags.length = 0) :
    step s (.down height) =
      .ok (if s.sel < s.flags.length - 1 then
        { s with sel := s.sel + 1,
                 off := if (s.off + visible_items height) % 2 ^ 64 ≤ s.sel + 1
                        then s.off + 1 else s.off }
      else s) := by
  simp only [step, if_neg hne]

theorem step_space_eq (s : UIState) (hs : s.sel < s.flags.length) :
    step s .space =
      .ok { s with flags := s.flags.set s.sel (!s.flags.get ⟨s.sel, hs⟩) } := by
  simp only [step, dif_pos hs]

set_option maxRecDepth 4000 in
theorem step_safe (s : UIState) (e : UIEvent)
    (hsel : s.sel < s.flags.length) (hoff : s.off ≤ s.sel) :
    ∃ s', step s e = .ok s' ∧ s'.flags.length = s.flags.length ∧
      s'.sel < s'.flags.length ∧ s'.off ≤ s'.sel := by
  cases e with
  | up =>
    refine ⟨_, rfl, ?_⟩
    split
    · rename_i hpos
      refine ⟨rfl, ?_, ?_⟩
      · show s.sel - 1 < s.flags.length
        omega
      · show (if s.sel - 1 < s.off then s.off - 1 else s.off) ≤ s.sel - 1
        split <;> omega
    · exact ⟨rfl, hsel, hoff⟩
  | down height =>
    have hlen : ¬ s.flags.length = 0 := by omega
    rw [step_down_eq s height hlen]
    by_cases hlt : s.sel < s.flags.length - 1
    · rw [if_pos hlt]
      by_cases hcond : (s.off + visible_items height) % 2 ^ 64 ≤ s.sel + 1
      · rw [if_pos hcond]
        exact ⟨_, rfl, rfl, (by omega : s.sel + 1 < s.flags.length),
          (by omega : s.off + 1 ≤ s.sel + 1)⟩
      · rw [if_neg hcond]
        exact ⟨_, rfl, rfl, (by omega : s.sel + 1 < s.flags.length),
          (by omega : s.off ≤ s.sel + 1)⟩
    · rw [if_neg hlt]
      exact ⟨_, rfl, rfl, hsel, hoff⟩
  | space =>
    rw [step_space_eq s hsel]
    exact ⟨_, rfl, by simp, by simp [hsel], by simp [hoff]⟩

theorem run_safe :
    ∀ (evs : List UIEvent) (s : UIState),
      s.sel < s.flags.length → s.off ≤ s.sel →
      ∃ s', runEvents s evs = .ok s' ∧ s'.flags.length = s.flags.length ∧
        s'.sel < s'.flags.length ∧ s'.off ≤ s'.sel := by
  intro evs
  induction evs with
  | nil => exact fun s h1 h2 => ⟨s, rfl, rfl, h1, h2⟩
  | cons e es ih =>
    intro s h1 h2
    obtain ⟨s1, hstep, hl, hs1, ho1⟩ := step_safe s e h1 h2
    obtain ⟨s2, hrun, hl2, hs2, ho2⟩ := ih s1 hs1 ho1
    refine ⟨s2, ?_, by rw [hl2, hl], hs2, ho2⟩
    simp only [runEvents, hstep]
    exact hrun

/-- C6: starting from `selected_index = 0`, `offset = 0` on a non-empty
channel list, every sequence of Up/Down key events runs without failure,
and afterwards `selected_index ∈ [0, len-1]`,
`offset ≤ selected_index`, and `offset ∈ [0, len-1]`. -/
theorem cursor_invariant (flags : List Bool) (evs : List UIEvent)
    (hne : 0 < flags.length)
    (hud : ∀ e ∈ evs, e = .up ∨ ∃ h, e = .down h) :
    ∃ s', runEvents ⟨flags, 0, 0⟩ evs = .ok s' ∧
      s'.sel ≤ flags.length - 1 ∧ s'.off ≤ s'.sel ∧
      s'.off ≤ flags.length - 1 := by
  obtain ⟨s', h1, h2, h3, h4⟩ :=
    run_safe evs ⟨flags, 0, 0⟩ hne (Nat.le_refl 0)
  have h2' : s'.flags.length = flags.length := h2
  rw [h2'] at h3
  exact ⟨s', h1, by omega, h4, by omega⟩

theorem cursor_invariant_witness :
    ∃ s', runEvents ⟨[true, true], 0, 0⟩ [.down 24, .up] = .ok s' ∧
      s'.sel ≤ ([true, true] : List Bool).length - 1 ∧ s'.off ≤ s'.sel ∧
      s'.off ≤ ([true, true] : List Bool).length - 1 :=
  cursor_invariant [true, true] [.down 24, .up] (by decide)
    (by
      intro e he
      simp only [List.mem_cons, List.mem_singleton, List.not_mem_nil,
        or_false] at he
      rcases he with rfl | rfl
      · exact Or.inr ⟨24, rfl⟩
      · exact Or.inl rfl)

/-- C10: the non-command-mode handlers are safe exactly on non-empty
lists — Down's `channels.len() - 1` bound cannot underflow when the list
is non-empty and Space's `channels[selected_index]` is in bounds whenever
`selected_index < len`; on the empty list, Down's bound underflows and
Space indexes out of bounds (both modelled as `.error`). -/
theorem nonempty_precondition :
    (∀ (s : UIState) (height : Nat), 0 < s.flags.length →
      ∃ s', step s (.down height) = .ok s') ∧
    (∀ s : UIState, s.sel < s.flags.length →
      ∃ s', step s .space = .ok s') ∧
    step ⟨[], 0, 0⟩ (.down 24) = .error () ∧
    step ⟨[], 0, 0⟩ .space = .error () := by
  refine ⟨fun s height hne => ?_, fun s hs => ?_, rfl, rfl⟩
  · exact ⟨_, step_down_eq s height (by omega)⟩
  · exact ⟨_, step_space_eq s hs⟩

theorem nonempty_precondition_witness :
    (∃ s', step ⟨[true], 0, 0⟩ (.down 24) = .ok s') ∧
    (∃ s', step ⟨[true], 0, 0⟩ .space = .ok s') :=
  ⟨nonempty_precondition.1 ⟨[true], 0, 0⟩ 24 (by decide),
   nonempty_precondition.2.1 ⟨[true], 0, 0⟩ (by decide)⟩

/-- C1 counterexample: a non-numeric string `"ID"` value aborts the
export.  With one selected channel whose message log holds a single
record with `"ID": "abc"`, the `s.parse::<u64>().unwrap()` in
`handle_command` panics (modelled as `.error`), so the export fails
rather than skipping the record. -/
theorem export_aborts_on_nonnumeric_string_id :
    export_selected
      { index := [(str "1", str "x")],
        channelJson := fun _ => none,
        messagesJson := fun _ =>
          some (some [{ idVal := .strVal (str "abc"), attachmentsEmpty := true }]) }
      [{ channel_type := str "t", name := str "x", date := str "d",
         id := str "1", msg_count := 1, attachment_count := 0,
         selected := true }] = .error () := by
  rfl

/-- C1 (amended): a record whose `"ID"` is neither an integer nor a
string is skipped without aborting; provided every string-encoded
`"ID"` parses as `u64`, the collection succeeds and yields exactly the
extractable identifiers in order.  A non-numeric string `"ID"`, however,
aborts the export (see the counterexample). -/
theorem collect_ids_skips_nonscalar (msgs : List Msg)
    (h : ∀ m ∈ msgs,
      (match m.idVal with
       | .strVal s => (parseU64 s).isSome
       | _ => true) = true) :
    collect_ids msgs = .ok (msgs.filterMap fun m =>
      match m.idVal with
      | .num n => some n
      | .strVal s => parseU64 s
      | .other => none) := by
  induction msgs with
  | nil => rfl
  | cons m ms ih =>
    have hm := h m (List.mem_cons_self m ms)
    have htail := ih fun m' hm' => h m' (List.mem_cons_of_mem m hm')
    cases hid : m.idVal with
    | num n =>
      simp only [collect_ids, hid, extract_id, htail, List.filterMap_cons]
    | strVal s =>
      rw [hid] at hm
      cases hp : parseU64 s with
      | none => simp [hp] at hm
      | some n =>
        simp only [collect_ids, hid, extract_id, hp, htail, List.filterMap_cons]
    | other =>
      simp only [collect_ids, hid, extract_id, htail, List.filterMap_cons]

theorem collect_ids_skips_nonscalar_witness :
    collect_ids
      [{ idVal := .num 5, attachmentsEmpty := true },
       { idVal := .other, attachmentsEmpty := false },
       { idVal := .strVal (str "7"), attachmentsEmpty := true }] =
      .ok [5, 7] :=
  collect_ids_skips_nonscalar _ (by decide)

/-- The message ids appearing in the input pairs under key `k`, in input
order (the spec side of the grouping contract). -/
def occ (k : Str) (pairs : List (Str × Str)) : List Str :=
  (pairs.filter fun p => decide (p.1 = k)).map Prod.snd

/-- Combine an existing group with newly appended ids. -/
def mergeOcc : Option (List Str) → List Str → Option (List Str)
  | none, [] => none
  | o, l => some (o.getD [] ++ l)

theorem mergeOcc_none_nil : mergeOcc none [] = none := rfl

theorem mergeOcc_some (vs l) : mergeOcc (some vs) l = some (vs ++ l) := rfl

theorem mergeOcc_none_cons (x l) : mergeOcc none (x :: l) = some (x :: l) := rfl

theorem insertGroup_keys :
    ∀ (m : List (Str × List Str)) (k v) (x : Str),
      x ∈ (insertGroup k v m).map Prod.fst →
      x = k ∨ x ∈ m.map Prod.fst := by
  intro m
  induction m with
  | nil =>
    intro k v x hx
    simp [insertGroup] at hx
    exact Or.inl hx
  | cons p rest ih =>
    intro k v x hx
    obtain ⟨k', vs⟩ := p
    simp only [insertGroup] at hx
    cases hc : strCmp k k' <;> rw [hc] at hx <;> simp at hx ⊢
    · tauto
    · tauto
    · rcases hx with hx | hx
      · tauto
      · rcases ih k v x (by simpa using hx) with h | h
        · tauto
        · simp at h; tauto

theorem insertGroup_sorted :
    ∀ (m : List (Str × List Str)) (k v),
      (m.map Prod.fst).Pairwise strLt →
      ((insertGroup k v m).map Prod.fst).Pairwise strLt := by
  intro m
  induction m with
  | nil =>
    intro k v _
    simp [insertGroup]
  | cons p rest ih =>
    intro k v hm
    obtain ⟨k', vs⟩ := p
    simp only [List.map_cons, List.pairwise_cons] at hm
    obtain ⟨hk', hrest⟩ := hm
    simp only [insertGroup]
    cases hc : strCmp k k' <;> simp only [List.map_cons, List.pairwise_cons]
    · refine ⟨?_, hk', hrest⟩
      intro x hx
      simp at hx
      rcases hx with rfl | hx
      · exact hc
      · exact strCmp_lt_trans hc (hk' x (by simpa using hx))
    · exact ⟨hk', hrest⟩
    · refine ⟨?_, ih k v hrest⟩
      intro x hx
      rcases insertGroup_keys rest k v x hx with rfl | hx'
      · exact strCmp_gt_iff_lt.mp hc
      · exact hk' x hx'

theorem strLt_irrefl (a : Str) : ¬ strLt a a := by
  intro h
  unfold strLt at h
  rw [strCmp_refl] at h
  cases h

theorem strLt_ne {a b : Str} (h : strLt a b) : a ≠ b := fun he =>
  strLt_irrefl b (he ▸ h)

theorem lookupG_none_of_lt_all :
    ∀ (m : List (Str × List Str)) (k : Str),
      (∀ x ∈ m.map Prod.fst, strLt k x) → lookupG k m = none := by
  intro m
  induction m with
  | nil => intro k _; rfl
  | cons p rest ih =>
    intro k h
    obtain ⟨k', vs⟩ := p
    have hne : ¬ k = k' := strLt_ne (h k' (by simp))
    simp only [lookupG, if_neg hne]
    exact ih k fun x hx => h x (by simp [hx])

theorem lookupG_insertGroup :
    ∀ (m : List (Str × List Str)) (k v k'),
      (m.map Prod.fst).Pairwise strLt →
      lookupG k' (insertGroup k v m) =
        if k' = k then some ((lookupG k m).getD [] ++ [v])
        else lookupG k' m := by
  intro m
  induction m with
  | nil =>
    intro k v k' _
    simp [insertGroup, lookupG]
  | cons p rest ih =>
    intro k v k' hm
    obtain ⟨k₀, vs⟩ := p
    simp only [List.map_cons, List.pairwise_cons] at hm
    obtain ⟨hk₀, hrest⟩ := hm
    simp only [insertGroup]
    cases hc : strCmp k k₀
    · -- new key goes in front; `k` cannot occur in the old map
      have hkm : lookupG k ((k₀, vs) :: rest) = none := by
        apply lookupG_none_of_lt_all
        intro x hx
        simp at hx
        rcases hx with rfl | hx
        · exact hc
        · exact strCmp_lt_trans hc (hk₀ x (by simpa using hx))
      by_cases he : k' = k
      · rw [if_pos he, hkm]
        simp [lookupG, he]
      · rw [if_neg he]
        simp [lookupG, he]
    · -- key already present at the head
      obtain rfl := strCmp_eq_iff.mp hc
      by_cases he : k' = k
      · rw [if_pos he]
        simp [lookupG, he]
      · rw [if_neg he]
        simp [lookupG, he]
    · -- head key is smaller; recurse
      have hne : ¬ k = k₀ := Ne.symm (strLt_ne (strCmp_gt_iff_lt.mp hc))
      have hL : lookupG k' ((k₀, vs) :: insertGroup k v rest) =
          if k' = k₀ then some vs else lookupG k' (insertGroup k v rest) := by
        simp [lookupG]
      by_cases he : k' = k
      · have hne' : ¬ k' = k₀ := by rw [he]; exact hne
        rw [if_pos he, hL, if_neg hne', ih k v k' hrest, if_pos he,
          show lookupG k ((k₀, vs) :: rest) = lookupG k rest from by
            simp [lookupG, if_neg hne]]
      · rw [if_neg he, hL]
        by_cases h0 : k' = k₀
        · simp [lookupG, h0]
        · rw [if_neg h0, ih k v k' hrest, if_neg he,
            show lookupG k' ((k₀, vs) :: rest) = lookupG k' rest from by
              simp [lookupG, if_neg h0]]

theorem occ_cons (k a b : Str) (rest : List (Str × Str)) :
    occ k ((a, b) :: rest) = if a = k then b :: occ k rest else occ k rest := by
  by_cases h : a = k <;> simp [occ, List.filter_cons, h]

theorem fold_group_spec :
    ∀ (pairs : List (Str × Str)) (m : List (Str × List Str)),
      (m.map Prod.fst).Pairwise strLt →
      (((pairs.foldl (fun acc p => insertGroup p.1 p.2 acc) m).map
          Prod.fst).Pairwise strLt ∧
        ∀ k, lookupG k (pairs.foldl (fun acc p => insertGroup p.1 p.2 acc) m) =
          mergeOcc (lookupG k m) (occ k pairs)) := by
  intro pairs
  induction pairs with
  | nil =>
    intro m hm
    refine ⟨hm, fun k => ?_⟩
    show lookupG k m = mergeOcc (lookupG k m) (occ k [])
    cases h : lookupG k m <;> simp [mergeOcc, occ, h]
  | cons p rest ih =>
    intro m hm
    obtain ⟨a, b⟩ := p
    simp only [List.foldl_cons]
    obtain ⟨hs, hl⟩ := ih (insertGroup a b m) (insertGroup_sorted m a b hm)
    refine ⟨hs, fun k => ?_⟩
    rw [hl k, lookupG_insertGroup m a b k hm, occ_cons]
    by_cases hka : k = a
    · subst hka
      rw [if_pos rfl, if_pos rfl]
      cases h : lookupG k m <;> simp [mergeOcc, h]
    · rw [if_neg hka, if_neg fun h => hka h.symm]

/-- C7: the export writer groups message ids by channel-id equality: the
emitted channel blocks are in strictly increasing lexicographic order of
channel id regardless of input order, each channel's block lists exactly
that channel's message ids in their relative input order, and on the
spec's example the rendered file is `"A:\n1, 3\n\nB:\n2\n\n"`
(ids comma-and-space-joined). -/
theorem export_grouping (pairs : List (Str × Str)) :
    ((groupPairs pairs).map Prod.fst).Pairwise strLt ∧
    (∀ k, lookupG k (groupPairs pairs) =
      match occ k pairs with
      | [] => none
      | l => some l) ∧
    export_to_txt [(str "A", str "1"), (str "B", str "2"), (str "A", str "3")] =
      str "A:\n1, 3\n\nB:\n2\n\n" := by
  obtain ⟨hs, hl⟩ := fold_group_spec pairs [] (by simp)
  refine ⟨hs, fun k => ?_, by rfl⟩
  unfold groupPairs
  rw [hl k]
  cases h : occ k pairs <;> simp [mergeOcc, lookupG]

/-- The spec's description of the ordering: message count descending,
then channel type ascending, then display name ascending. -/
def specLE (a b : Chan) : Prop :=
  b.msg_count < a.msg_count ∨
    (b.msg_count = a.msg_count ∧
      (strLt a.channel_type b.channel_type ∨
        (a.channel_type = b.channel_type ∧
          (strLt a.name b.name ∨ a.name = b.name))))

theorem chanCmp_swap (a b : Chan) : chanCmp b a = (chanCmp a b).swap := by
  unfold chanCmp
  rw [swap_then, swap_then, ← natCmp_swap, ← strCmp_swap, ← strCmp_swap]

theorem chanCmp_eq_iff (a b : Chan) :
    chanCmp a b = .eq ↔
      a.msg_count = b.msg_count ∧ a.channel_type = b.channel_type ∧
        a.name = b.name := by
  unfold chanCmp
  rw [then_eq_eq, then_eq_eq]
  simp only [natCmp_eq_iff, strCmp_eq_iff]
  constructor
  · rintro ⟨⟨h1, h2⟩, h3⟩
    exact ⟨h1.symm, h2, h3⟩
  · rintro ⟨h1, h2, h3⟩
    exact ⟨⟨h1.symm, h2⟩, h3⟩

theorem chanLE_iff_specLE (a b : Chan) : chanLE a b = true ↔ specLE a b := by
  have hne : chanLE a b = true ↔ ¬ chanCmp a b = .gt := by
    unfold chanLE
    cases chanCmp a b <;> simp
  have hlte : (chanCmp a b = .lt ∨ chanCmp a b = .eq) ↔ specLE a b := by
    unfold chanCmp specLE
    simp only [then_eq_lt, then_eq_eq, natCmp_lt_iff, natCmp_eq_iff,
      strCmp_eq_iff, strLt]
    tauto
  rw [hne, ← hlte]
  constructor
  · intro h
    cases hc : chanCmp a b
    · exact Or.inl rfl
    · exact Or.inr rfl
    · exact absurd hc h
  · rintro (h | h) <;> simp [h]

theorem specLE_trans {a b c : Chan} (h1 : specLE a b) (h2 : specLE b c) :
    specLE a c := by
  unfold specLE at *
  rcases h1 with h1 | ⟨e1, h1⟩
  · rcases h2 with h2 | ⟨e2, h2⟩
    · exact Or.inl (by omega)
    · exact Or.inl (by omega)
  · rcases h2 with h2 | ⟨e2, h2⟩
    · exact Or.inl (by omega)
    · refine Or.inr ⟨by omega, ?_⟩
      rcases h1 with h1 | ⟨d1, h1⟩
      · rcases h2 with h2 | ⟨d2, h2⟩
        · exact Or.inl (strCmp_lt_trans h1 h2)
        · exact Or.inl (by rw [← d2]; exact h1)
      · rcases h2 with h2 | ⟨d2, h2⟩
        · exact Or.inl (by rw [d1]; exact h2)
        · refine Or.inr ⟨d1.trans d2, ?_⟩
          rcases h1 with h1 | e1n
          · rcases h2 with h2 | e2n
            · exact Or.inl (strCmp_lt_trans h1 h2)
            · exact Or.inl (by rw [← e2n]; exact h1)
          · rcases h2 with h2 | e2n
            · exact Or.inl (by rw [e1n]; exact h2)
            · exact Or.inr (e1n.trans e2n)

theorem chanLE_total (a b : Chan) : chanLE a b = true ∨ chanLE b a = true := by
  unfold chanLE
  rw [chanCmp_swap a b]
  cases h : chanCmp a b <;> simp [Ordering.swap]

/-- C4: the loader's comparator orders summaries by message count
descending, then channel type ascending, then display name ascending
(`specLE` is exactly that reading and coincides with the code's
comparator); the comparator is a total order on
(message_count, type, name) triples (equality exactly on equal triples,
transitive, total); the sort's output is ordered by it; re-sorting an
already-sorted list leaves it unchanged; and sorting permutes the
input. -/
theorem sort_spec :
    (∀ a b : Chan, chanLE a b = true ↔ specLE a b) ∧
    (∀ l : List Chan, (sortChannels l).Pairwise fun a b => chanLE a b = true) ∧
    (∀ a b : Chan, chanCmp a b = .eq ↔
      a.msg_count = b.msg_count ∧ a.channel_type = b.channel_type ∧
        a.name = b.name) ∧
    (∀ a b c : Chan, chanLE a b = true → chanLE b c = true →
      chanLE a c = true) ∧
    (∀ a b : Chan, chanLE a b = true ∨ chanLE b a = true) ∧
    (∀ l : List Chan, l.Pairwise (fun a b => chanLE a b = true) →
      sortChannels l = l) ∧
    (∀ l : List Chan, (sortChannels l).Perm l) := by
  have htrans : ∀ a b c : Chan, chanLE a b = true → chanLE b c = true →
      chanLE a c = true := fun a b c h1 h2 =>
    (chanLE_iff_specLE a c).mpr
      (specLE_trans ((chanLE_iff_specLE a b).mp h1)
        ((chanLE_iff_specLE b c).mp h2))
  have htotal : ∀ a b : Chan, (chanLE a b || chanLE b a) = true := fun a b => by
    rcases chanLE_total a b with h | h <;> simp [h]
  refine ⟨chanLE_iff_specLE, ?_, chanCmp_eq_iff, htrans, chanLE_total, ?_, ?_⟩
  · exact fun l => List.sorted_mergeSort htrans htotal l
  · exact fun l h => List.mergeSort_of_sorted h
  · exact fun l => List.mergeSort_perm l chanLE

theorem sort_spec_witness :
    sortChannels
      [{ channel_type := str "GUILD_TEXT", name := str "general",
         date := str "January 2015", id := str "1", msg_count := 5,
         attachment_count := 0, selected := true }] =
      [{ channel_type := str "GUILD_TEXT", name := str "general",
         date := str "January 2015", id := str "1", msg_count := 5,
         attachment_count := 0, selected := true }] :=
  sort_spec.2.2.2.2.2.1 _ (by simp)

theorem load_loop_spec (a : Archive) :
    ∀ (entries : List (Str × Str)) (l : List Chan),
      load_loop a entries = .ok l →
      l = entries.filterMap (build_ok a) ∧
      ∀ e ∈ entries, ∃ r, build_channel a e = .ok r := by
  intro entries
  induction entries with
  | nil =>
    intro l h
    cases h
    exact ⟨rfl, by simp⟩
  | cons e rest ih =>
    intro l h
    simp only [load_loop] at h
    cases hb : build_channel a e with
    | error er => rw [hb] at h; cases h
    | ok c? =>
      rw [hb] at h
      cases hr : load_loop a rest with
      | error er => rw [hr] at h; cases h
      | ok tail =>
        rw [hr] at h
        obtain ⟨htail, hall⟩ := ih tail hr
        have hmem : ∀ e' ∈ e :: rest, ∃ r, build_channel a e' = .ok r := by
          intro e' he'
          rcases List.mem_cons.mp he' with rfl | he'
          · exact ⟨c?, hb⟩
          · exact hall e' he'
        cases c? with
        | some c =>
          cases h
          exact ⟨by simp [List.filterMap_cons, build_ok, hb, htail], hmem⟩
        | none =>
          cases h
          exact ⟨by simp [List.filterMap_cons, build_ok, hb, htail], hmem⟩

/-- C5: when loading succeeds, the summary list is exactly (up to the
sort's permutation) one summary per preprocessed index entry kept by the
loader, and an entry is kept precisely when its channel directory has
both files present and a strictly positive message count — so a channel
with a missing file or an empty message array never appears. -/
theorem loader_exactly_one (a : Archive) (l : List Chan)
    (h : load_channels a = .ok l) :
    l.Perm ((preprocess_index a.index).filterMap (build_ok a)) ∧
    ∀ e ∈ preprocess_index a.index,
      (build_ok a e).isSome = qualifies a e := by
  unfold load_channels at h
  cases hl : load_loop a (preprocess_index a.index) with
  | error er => rw [hl] at h; cases h
  | ok raw =>
    rw [hl] at h
    cases h
    obtain ⟨hraw, hall⟩ := load_loop_spec a _ raw hl
    constructor
    · rw [← hraw]
      exact List.mergeSort_perm raw chanLE
    · intro e he
      obtain ⟨r, hr⟩ := hall e he
      cases hc : a.channelJson e.1 with
      | none => simp [build_ok, build_channel, qualifies, hc]
      | some cj =>
        cases hm : a.messagesJson e.1 with
        | none => simp [build_ok, build_channel, qualifies, hc, hm]
        | some mj =>
          cases cj with
          | none =>
            have hbad : build_channel a e = .error () := by
              simp [build_channel, hc, hm]
            rw [hbad] at hr
            cases hr
          | some info =>
            cases hs : parse_snowflake_to_timestamp info.id with
            | error u =>
              have hbad : build_channel a e = .error () := by
                simp [build_channel, hc, hm, hs]
              rw [hbad] at hr
              cases hr
            | ok creation_date =>
              cases mj with
              | none =>
                have hbad : build_channel a e = .error () := by
                  simp [build_channel, hc, hm, hs]
                rw [hbad] at hr
                cases hr
              | some messages =>
                by_cases hcount : 0 < messages.length
                · simp [build_ok, build_channel, qualifies, hc, hm, hs, hcount]
                · simp [build_ok, build_channel, qualifies, hc, hm, hs, hcount]

theorem loader_exactly_one_witness :
    ([] : List Chan).Perm
      ((preprocess_index ([] : List (Str × Str))).filterMap
        (build_ok { index := [], channelJson := fun _ => none,
                    messagesJson := fun _ => none })) ∧
    ∀ e ∈ preprocess_index ([] : List (Str × Str)),
      (build_ok { index := [], channelJson := fun _ => none,
                  messagesJson := fun _ => none } e).isSome =
        qualifies { index := [], channelJson := fun _ => none,
                    messagesJson := fun _ => none } e :=
  loader_exactly_one
    { index := [], channelJson := fun _ => none, messagesJson := fun _ => none }
    [] (by simp [load_channels, preprocess_index, load_loop, sortChannels])

end Chad
